import Mathlib

/-!
Verification development for the `pedantagent` repository.

The Python sources are shallowly embedded as Lean definitions:

* `src/pedantagent/web_client.py` — token classifier (`process_tokens`,
  `placeholder`, `looks_like_hint`, `parse_rgb`, `hint_score_from_color`,
  `read_state`).
* `src/pedantagent/llm.py` — suggestion post-processing (`normalize_word`,
  `filter_words`, `suggest_words`).
* `src/pedantagent/agent.py` — the guess-orchestration loop (`PedantAgent.run`),
  embedded as a step function `step` iterated by `runLoop` with explicit fuel;
  the Renderer and the Oracle are abstracted as an environment `Env`, exactly
  at the interfaces the agent uses (`read_state`, `guess`, `has_win_marker`,
  `suggest_words`).

Python `float` values that the claims reason about (hint scores, the reveal
ratio, the reveal threshold) are modelled as exact rationals; the spec's
formulas are exact at this granularity.  Python strings are modelled through
their character lists.
-/

/-! ### Python string primitives used by the sources -/

/-- Whitespace characters stripped by Python `str.strip()` (the ASCII ones;
tokens in this code base contain no exotic whitespace). -/
def pyWhitespace : List Char := [' ', '\t', '\n', '\r', Char.ofNat 11, Char.ofNat 12]

/-- Drop characters satisfying `bad` from both ends of a character list. -/
def dropEnds (bad : Char → Bool) (cs : List Char) : List Char :=
  ((cs.dropWhile bad).reverse.dropWhile bad).reverse

/-- Model of Python `str.strip()` on character lists. -/
def pyStripL (cs : List Char) : List Char :=
  dropEnds (fun c => c ∈ pyWhitespace) cs

/-- Model of Python `str.strip()`. -/
def pyStrip (s : String) : String :=
  String.mk (pyStripL s.data)

/-- Model of Python `str.strip(chars)`: drop characters of `chars` from both ends. -/
def pyStripChars (s : String) (chars : List Char) : String :=
  String.mk (dropEnds (fun c => c ∈ chars) s.data)

/-- Model of Python `str.lower()` on one character, for the Latin-1 range the
game uses: ASCII `A`–`Z` and `À`–`Þ` (except `×`) map down by 32. -/
def pyCharLower (c : Char) : Char :=
  if 'A' ≤ c ∧ c ≤ 'Z' then Char.ofNat (c.toNat + 32)
  else if 192 ≤ c.toNat ∧ c.toNat ≤ 222 ∧ c.toNat ≠ 215 then Char.ofNat (c.toNat + 32)
  else c

/-- Model of Python `str.lower()`. -/
def pyLower (s : String) : String :=
  String.mk (s.data.map pyCharLower)

/-- Model of Python's substring test `needle in haystack`. -/
def pyIn (needle haystack : String) : Bool :=
  decide (needle.data <:+: haystack.data)

/-- Model of Python `str.split(sep)` for a one-character separator
(empty pieces are kept, as in Python). -/
def splitOnChar (sep : Char) : List Char → List (List Char)
  | [] => [[]]
  | c :: rest =>
    match splitOnChar sep rest with
    | [] => [[]]
    | grp :: gs => if c = sep then [] :: grp :: gs else (c :: grp) :: gs

/-- Numeric value of a digit list (most significant first). -/
def digitsToNat (cs : List Char) : Nat :=
  cs.foldl (fun a c => a * 10 + (c.toNat - 48)) 0

/-- Model of Python `float(s)` on plain decimal literals: optional sign,
digits, optional `.` and fractional digits.  Exponent, `inf` and `nan`
forms are not modelled; the color strings of this program never use them. -/
def pyFloatL (cs : List Char) : Option ℚ :=
  let sgn : ℚ := match cs with
    | '-' :: _ => -1
    | _ => 1
  let body : List Char := match cs with
    | '-' :: r => r
    | '+' :: r => r
    | r => r
  let intPart := body.takeWhile (fun c => c ≠ '.')
  let rest := body.dropWhile (fun c => c ≠ '.')
  match rest with
  | [] =>
    if intPart ≠ [] ∧ intPart.all Char.isDigit then
      some (sgn * (digitsToNat intPart : ℚ))
    else none
  | _ :: frac =>
    if intPart.all Char.isDigit ∧ frac.all Char.isDigit ∧ (intPart ≠ [] ∨ frac ≠ []) then
      some (sgn * ((digitsToNat intPart : ℚ) + (digitsToNat frac : ℚ) / (10 : ℚ) ^ frac.length))
    else none

/-- Model of Python `int(x)` on a float value: truncation toward zero. -/
def truncQ (q : ℚ) : ℤ :=
  if 0 ≤ q then ⌊q⌋ else ⌈q⌉

/-! ### Token classifier (`src/pedantagent/web_client.py`) -/

/-- Style constant `DEFAULT_TEXT_COLOR` observed in the Pedantix UI. -/
def DEFAULT_TEXT_COLOR : String := "rgb(32, 33, 34)"

/-- Style constant `HIGHLIGHT_GREEN_BG` observed in the Pedantix UI. -/
def HIGHLIGHT_GREEN_BG : String := "rgb(102, 238, 102)"

/-- A word shown as a semantic hint (dataclass `HintWord`). -/
structure HintWord where
  word : String
  score : ℚ
deriving DecidableEq

/-- Structured state extracted from the DOM (dataclass `GameState`). -/
structure GameState where
  title_text : String
  article_text : String
  revealed_words : List String
  hint_words : List HintWord
  title_revealed_count : Nat
  title_token_count : Nat
  article_revealed_count : Nat
  article_token_count : Nat
  new_reveal_ids : List ℤ
  solved : Bool
  solution_url : Option String
deriving DecidableEq

/-- One raw token descriptor as produced by the page snapshot (`readSpan` in
the JS payload of `read_state`): id, text (absent when hidden), approximate
hidden length, colors, section membership.  Numeric ids are modelled as
integers. -/
structure RawToken where
  id : Option ℤ
  text : Option String
  hiddenLen : Option ℤ
  color : Option String
  backgroundColor : Option String
  inTitle : Bool
deriving DecidableEq

/-- `PedantixWebClient._parse_rgb`: parse an `rgb(r, g, b)` string into a
channel triple; any failure yields `none`.  At least three comma-separated
parts are required; each is parsed as `int(float(part))`. -/
def parse_rgb (s : String) : Option (ℤ × ℤ × ℤ) :=
  match pyStripL s.data with
  | 'r' :: 'g' :: 'b' :: '(' :: rest =>
    match rest.getLast? with
    | some ')' =>
      let parts := (splitOnChar ',' rest.dropLast).map pyStripL
      if h : 3 ≤ parts.length then
        match pyFloatL (parts.get ⟨0, by omega⟩),
              pyFloatL (parts.get ⟨1, by omega⟩),
              pyFloatL (parts.get ⟨2, by omega⟩) with
        | some r, some g, some b => some (truncQ r, truncQ g, truncQ b)
        | _, _, _ => none
      else none
    | _ => none
  | _ => none

/-- `PedantixWebClient._hint_score_from_color`: heuristic "yellow-ness" score
in `[0, 1]`; unparsable colors score `0`. -/
def hint_score_from_color (color : String) : ℚ :=
  match parse_rgb color with
  | none => 0
  | some (r, g, b) =>
    let rf : ℚ := (r : ℚ) / 255
    let gf : ℚ := (g : ℚ) / 255
    let bf : ℚ := (b : ℚ) / 255
    let score := (rf + gf) / 2 - (1 / 2) * bf
    max 0 (min 1 score)

/-- `PedantixWebClient._looks_like_hint`: non-empty color different from the
default ink. -/
def looks_like_hint (color : String) : Bool :=
  (!(color == "")) && (!(color == DEFAULT_TEXT_COLOR))

/-- `PedantixWebClient._placeholder`: stable placeholder for hidden or hinted
tokens; a missing id becomes `-1`, and a measured positive hidden length is
appended after `~`. -/
def placeholder (token_id : Option ℤ) (hidden_len : Option ℤ) (pre : String) : String :=
  let tid : ℤ := token_id.getD (-1)
  match hidden_len with
  | some n => if 0 < n then "⟦" ++ pre ++ toString tid ++ "~" ++ toString n ++ "⟧"
              else "⟦" ++ pre ++ toString tid ++ "⟧"
  | none => "⟦" ++ pre ++ toString tid ++ "⟧"

/-- The stripped foreground color of a token (`(t.get("color") or "").strip()`). -/
def tokenColor (t : RawToken) : String := pyStrip (t.color.getD "")

/-- The stripped background color of a token. -/
def tokenBg (t : RawToken) : String := pyStrip (t.backgroundColor.getD "")

/-- Section letter of a token: `t` for title, `w` for body. -/
def tokenPre (t : RawToken) : String := if t.inTitle then "t" else "w"

/-- String appended to `words_out` for one token in the `_process_tokens`
loop: hidden and hinted tokens emit the placeholder, revealed tokens emit
their literal text. -/
def emitWord (t : RawToken) : String :=
  match t.text with
  | none => placeholder t.id t.hiddenLen (tokenPre t)
  | some text =>
    if looks_like_hint (tokenColor t) then placeholder t.id t.hiddenLen (tokenPre t)
    else text

/-- Whether a token is classified as a hint (visible text, non-default color). -/
def tokenIsHint (t : RawToken) : Bool :=
  match t.text with
  | none => false
  | some _ => looks_like_hint (tokenColor t)

/-- `HintWord` recorded for one token by the `_process_tokens` loop, if any. -/
def tokenHint (t : RawToken) : Option HintWord :=
  match t.text with
  | none => none
  | some text =>
    if looks_like_hint (tokenColor t) then
      some ⟨pyLower text, hint_score_from_color (tokenColor t)⟩
    else none

/-- Lowercased word recorded in `revealed_words` for one token, if any. -/
def tokenRevealed (t : RawToken) : Option String :=
  match t.text with
  | none => none
  | some text =>
    if looks_like_hint (tokenColor t) then none else some (pyLower text)

/-- Id recorded in `new_reveal_ids` for one token, if any: a revealed token on
the green just-revealed background carrying an id. -/
def tokenNewId (t : RawToken) : Option ℤ :=
  match t.text with
  | none => none
  | some _ =>
    if looks_like_hint (tokenColor t) then none
    else if tokenBg t = HIGHLIGHT_GREEN_BG then t.id else none

/-- Result of `PedantixWebClient._process_tokens` for one section. -/
structure ProcOut where
  text : String
  revealedCount : Nat
  tokenCount : Nat
  revealedWords : List String
  hintWords : List HintWord
  newRevealIds : List ℤ
deriving DecidableEq

/-- `PedantixWebClient._reconstruct_text`: words joined with single spaces. -/
def reconstruct_text (words : List String) : String :=
  String.intercalate " " words

/-- `PedantixWebClient._process_tokens`: classify each raw token into hidden,
hinted or revealed, accumulating the reconstructed text, counts, revealed
words, hint words and newly-revealed ids.  The Python loop appends to each
accumulator token by token in order; `revealed_count` is incremented exactly
when a word is appended to `revealed_words`. -/
def process_tokens (tokens : List RawToken) : ProcOut :=
  { text := reconstruct_text (tokens.map emitWord)
    revealedCount := (tokens.filterMap tokenRevealed).length
    tokenCount := tokens.length
    revealedWords := tokens.filterMap tokenRevealed
    hintWords := tokens.filterMap tokenHint
    newRevealIds := tokens.filterMap tokenNewId }

/-- Order-preserving first-seen deduplication (Python `dict.fromkeys`). -/
def dedupAux {α : Type} [DecidableEq α] (seen : List α) : List α → List α
  | [] => []
  | x :: xs => if x ∈ seen then dedupAux seen xs else x :: dedupAux (x :: seen) xs

/-- Order-preserving first-seen deduplication of a list. -/
def dedupKeepFirst {α : Type} [DecidableEq α] (l : List α) : List α :=
  dedupAux [] l

/-- One step of building `hint_map`: keep insertion order of words, replace
the stored score when the new one is strictly greater. -/
def hintInsert : List (String × ℚ) → HintWord → List (String × ℚ)
  | [], hw => [(hw.word, hw.score)]
  | (w, s) :: rest, hw =>
    if w = hw.word then (w, if s < hw.score then hw.score else s) :: rest
    else (w, s) :: hintInsert rest hw

/-- The `hint_map` dict of `read_state`: fold all hints in order. -/
def mergeHints (hs : List HintWord) : List (String × ℚ) :=
  hs.foldl hintInsert []

/-- Descending-score order on hint words (the `sorted(..., reverse=True)` key). -/
def hintGE (a b : HintWord) : Prop := b.score ≤ a.score

instance : DecidableRel hintGE := fun a b => inferInstanceAs (Decidable (b.score ≤ a.score))

instance : IsTotal HintWord hintGE := ⟨fun a b => le_total b.score a.score⟩

instance : IsTrans HintWord hintGE := ⟨fun _ _ _ h1 h2 => le_trans h2 h1⟩

/-- `PedantixWebClient.read_state`, given the two raw token arrays and the
`solutionHref` attribute found in the page (if any): classify both sections,
merge revealed words (title first, first-seen dedup), merge hints by word with
max-score-wins then sort by descending score (Python's stable sort), merge
newly-revealed ids into a sorted deduplicated sequence, and derive the solved
flag from the solution link. -/
def read_state (titleTokens articleTokens : List RawToken) (solutionHref : Option String) :
    GameState :=
  let solution_url : Option String := match solutionHref with
    | some s => if s = "" then none else some s
    | none => none
  let solved := solution_url.isSome
  let tp := process_tokens titleTokens
  let ap := process_tokens articleTokens
  { title_text := tp.text
    article_text := ap.text
    revealed_words := dedupKeepFirst (tp.revealedWords ++ ap.revealedWords)
    hint_words := List.insertionSort hintGE
      ((mergeHints (tp.hintWords ++ ap.hintWords)).map fun p => ⟨p.1, p.2⟩)
    title_revealed_count := tp.revealedCount
    title_token_count := tp.tokenCount
    article_revealed_count := ap.revealedCount
    article_token_count := ap.tokenCount
    new_reveal_ids := List.insertionSort (fun a b : ℤ => a ≤ b)
      (dedupKeepFirst (tp.newRevealIds ++ ap.newRevealIds))
    solved := solved
    solution_url := solution_url }

/-! ### Suggestion post-processing (`src/pedantagent/llm.py`) -/

/-- Characters stripped around candidate words by `normalize_word`
(space, tab, CR, LF and surrounding punctuation). -/
def stripSet : List Char := (" \t\r\n.,;:!?\"()[]\x7b\x7d").data

/-- Whether a character matches the `_WORD_RE` class: ASCII letters, the
Latin-1 letter ranges `À`-`Ö`, `Ø`-`ö`, `ø`-`ÿ`, apostrophe and hyphen. -/
def isWordChar (c : Char) : Bool :=
  ('a' ≤ c && c ≤ 'z') || ('A' ≤ c && c ≤ 'Z') ||
  (192 ≤ c.toNat && c.toNat ≤ 214) || (216 ≤ c.toNat && c.toNat ≤ 246) ||
  (248 ≤ c.toNat && c.toNat ≤ 255) || c = Char.ofNat 39 || c = '-'

/-- `_WORD_RE.match(w)`: non-empty and every character in the class. -/
def matchesWordRe (w : String) : Bool :=
  (!(w == "")) && w.data.all isWordChar

/-- `normalize_word`: strip whitespace, lowercase, then strip surrounding
punctuation. -/
def normalize_word (w : String) : String :=
  pyStripChars (pyLower (pyStrip w)) stripSet

/-- Recursive worker for `filter_words`, carrying the `seen` set. -/
def filterWordsAux (tested revealed : List String) (minLen : Nat) (seen : List String) :
    List String → List String
  | [] => []
  | raw :: rest =>
    let w := normalize_word raw
    if w = "" then filterWordsAux tested revealed minLen seen rest
    else if w.length < minLen then filterWordsAux tested revealed minLen seen rest
    else if w ∈ tested ∨ w ∈ revealed then filterWordsAux tested revealed minLen seen rest
    else if w ∈ seen then filterWordsAux tested revealed minLen seen rest
    else if !matchesWordRe w then filterWordsAux tested revealed minLen seen rest
    else w :: filterWordsAux tested revealed minLen (w :: seen) rest

/-- `filter_words`: defensive validation of the model's candidates — drop
empties, short words, already tested or revealed words, duplicates and words
failing the letter/apostrophe/hyphen pattern, preserving order. -/
def filter_words (words tested revealed : List String) (minLen : Nat) : List String :=
  filterWordsAux tested revealed minLen [] words

/-- Observable outcome of one Oracle round-trip, at the point where
`suggest_words` parses the response body with `json.loads`: either the content
is a JSON object (whose `words` key, defaulted to `[]`, is the candidate
list), or it is malformed and the parse raises. -/
inductive OracleResp
  | malformed
  | parsed (words : List String)
deriving DecidableEq

/-- `PedantixLLM.suggest_words`, given the response: a malformed body raises
(modelled as `Except.error`); otherwise the candidate list is validated with
`filter_words` against the normalized tested and revealed words, with
`min_len = 3`. -/
def suggest_words (resp : OracleResp) (tested_words revealed_words : List String) :
    Except Unit (List String) :=
  match resp with
  | OracleResp.malformed => Except.error ()
  | OracleResp.parsed ws =>
    Except.ok (filter_words ws (tested_words.map normalize_word)
      (revealed_words.map normalize_word) 3)

/-! ### Guess orchestrator (`src/pedantagent/agent.py`) -/

/-- Result record returned by `PedantAgent.run` (dataclass `RunResult`). -/
structure RunResult where
  guesses_made : Nat
  solved : Bool
deriving DecidableEq

/-- The agent's mode: warm-up word list or LLM suggestions. -/
inductive Mode
  | warmup
  | llm
deriving DecidableEq

/-- `PedantAgent._is_solved`: the Renderer's win marker, or the lowercased
concatenation of title and article text containing `bravo` or the stem
`gagn`. -/
def is_solved (winMarker : Bool) (st : GameState) : Bool :=
  if winMarker then true
  else
    let low := pyLower (st.title_text ++ " " ++ st.article_text)
    pyIn "bravo" low || pyIn "gagn" low

/-- `PedantAgent._reveal_ratio`: revealed tokens over total tokens, `0` when
there are no tokens. -/
def reveal_ratio (st : GameState) : ℚ :=
  let totalTokens := st.title_token_count + st.article_token_count
  let totalRevealed := st.title_revealed_count + st.article_revealed_count
  if totalTokens = 0 then 0 else (totalRevealed : ℚ) / (totalTokens : ℚ)

/-- Parameters of `PedantAgent.run` (the `words` list is also consulted by the
`w == words[-1]` transition test). -/
structure Params where
  words : List String
  maxGuesses : Nat
  revealThreshold : ℚ
  llmBatchSize : Nat
deriving DecidableEq

/-- The external collaborators of the run loop, abstracted at the interfaces
the agent uses.  Each is a function of the interaction history (the words
submitted to the Renderer so far, in order): `stateAfter` is what
`read_state` returns, `winMarkerAfter` is what `has_win_marker` reports, and
`oracle` is `none` when the LLM capability is disabled, else the response of
one suggestion round-trip. -/
structure Env where
  stateAfter : List String → GameState
  winMarkerAfter : List String → Bool
  oracle : Option (List String → OracleResp)

/-- Mutable state of one `run` invocation: the local variables `guesses`,
`mode`, the not-yet-consumed warm-up iterator, `pending_llm_words`, the agent
field `self.tested` (insertion-ordered), plus two observers of the
interaction — the words submitted to the Renderer (`history`) and the number
of pacing sleeps performed (`paces`). -/
structure LoopState where
  guesses : Nat
  tested : List String
  mode : Mode
  warmupRemaining : List String
  pending : List String
  history : List String
  paces : Nat
deriving DecidableEq

/-- Result of one iteration of the `while True` loop: continue with a new
state, return a `RunResult`, or let an exception escape `run`. -/
inductive StepRes
  | cont (s : LoopState)
  | done (r : RunResult) (s : LoopState)
  | exn (s : LoopState)
deriving DecidableEq

/-- The tail of one loop iteration after a candidate word was popped
(agent.py lines 112-137): strip it; skip it silently when empty or already
tested; otherwise count it, stop at the budget, record it as tested, submit
it, pace, read the fresh state, return on solved, and finally apply the
warm-up-to-LLM transition test. -/
def afterPop (env : Env) (p : Params) (s : LoopState) (w0 : String) : StepRes :=
  let w := pyStrip w0
  if w = "" ∨ w ∈ s.tested then StepRes.cont s
  else
    let g := s.guesses + 1
    if p.maxGuesses < g then StepRes.done ⟨g - 1, false⟩ { s with guesses := g }
    else
      let hist := s.history ++ [w]
      let s' : LoopState :=
        { s with guesses := g, tested := s.tested ++ [w], history := hist,
                 paces := s.paces + 1 }
      let st := env.stateAfter hist
      if is_solved (env.winMarkerAfter hist) st then StepRes.done ⟨g, true⟩ s'
      else if s.mode = Mode.warmup ∧
          (reveal_ratio st ≥ p.revealThreshold ∨ p.words.getLast? = some w) then
        StepRes.cont { s' with mode := Mode.llm, pending := [] }
      else StepRes.cont s'

/-- Python `sorted` on strings (`sorted(self.tested)`). -/
def sortStrings (l : List String) : List String :=
  List.insertionSort (fun a b : String => a ≤ b) l

/-- One iteration of the `while True` loop of `PedantAgent.run`: pick the next
candidate from the warm-up iterator or the pending LLM queue, refilling the
queue through the Oracle when empty (agent.py lines 77-110), then hand over to
`afterPop`. -/
def step (env : Env) (p : Params) (s : LoopState) : StepRes :=
  match s.mode with
  | Mode.warmup =>
    match s.warmupRemaining with
    | [] => StepRes.cont { s with mode := Mode.llm }
    | w :: rest => afterPop env p { s with warmupRemaining := rest } w
  | Mode.llm =>
    match s.pending with
    | w :: rest => afterPop env p { s with pending := rest } w
    | [] =>
      match env.oracle with
      | none => StepRes.done ⟨s.guesses, false⟩ s
      | some orc =>
        let st := env.stateAfter s.history
        match suggest_words (orc s.history) (sortStrings s.tested) st.revealed_words with
        | Except.error _ => StepRes.exn s
        | Except.ok ws =>
          match ws.take p.llmBatchSize with
          | [] => StepRes.done ⟨s.guesses, false⟩ s
          | w :: rest => afterPop env p { s with pending := rest } w

/-- How a run ends: a normal `RunResult`, or an exception escaping `run`. -/
inductive RunOutcome
  | ok (r : RunResult)
  | exn
deriving DecidableEq

/-- Iterate `step` with explicit fuel; `none` means the fuel ran out before
the loop terminated.  The final `LoopState` is returned alongside the outcome
so that theorems can speak about the words actually submitted. -/
def runLoop (env : Env) (p : Params) : Nat → LoopState → Option (RunOutcome × LoopState)
  | 0, _ => none
  | Nat.succ fuel, s =>
    match step env p s with
    | StepRes.cont s' => runLoop env p fuel s'
    | StepRes.done r s' => some (RunOutcome.ok r, s')
    | StepRes.exn s' => some (RunOutcome.exn, s')

/-- Initial loop state of `PedantAgent.run` on a fresh agent: zero guesses,
empty tested set, warm-up mode, the full word list pending, empty suggestion
queue. -/
def initState (words : List String) : LoopState :=
  { guesses := 0, tested := [], mode := Mode.warmup, warmupRemaining := words,
    pending := [], history := [], paces := 0 }

/-- `PedantAgent.run` with explicit fuel. -/
def run (env : Env) (p : Params) (fuel : Nat) : Option (RunOutcome × LoopState) :=
  runLoop env p fuel (initState p.words)

/-! ### Specification helpers for the merge claims -/

/-- Keys of an association list, in order. -/
def keysOf (m : List (String × ℚ)) : List String := m.map Prod.fst

/-- Lookup in an association list (first match). -/
def lookupScore : List (String × ℚ) → String → Option ℚ
  | [], _ => none
  | (w, s) :: rest, x => if w = x then some s else lookupScore rest x

/-- The `prev is None or score > prev` update of the `hint_map` dict. -/
def updateScore (acc : Option ℚ) (s : ℚ) : ℚ :=
  match acc with
  | none => s
  | some p => if p < s then s else p

/-- Running maximum of a score list, starting from `acc`. -/
def maxScoreAcc (acc : Option ℚ) (l : List ℚ) : Option ℚ :=
  l.foldl (fun a s => some (updateScore a s)) acc

/-- All scores recorded for the word `x` in a hint list, in order. -/
def scoresOf (x : String) (hs : List HintWord) : List ℚ :=
  (hs.filter (fun h => h.word = x)).map (fun h => h.score)

/-! ### Concrete environments for scenario theorems -/

/-- A game state with no tokens and no text (what `read_state` yields on an
empty page). -/
def trivState : GameState :=
  { title_text := "", article_text := "", revealed_words := [], hint_words := [],
    title_revealed_count := 0, title_token_count := 0,
    article_revealed_count := 0, article_token_count := 0,
    new_reveal_ids := [], solved := false, solution_url := none }

/-- Environment with an empty page, no win marker and a disabled Oracle. -/
def envTriv : Env :=
  { stateAfter := fun _ => trivState, winMarkerAfter := fun _ => false, oracle := none }

/-- Environment whose article text reads `Bravo` after every guess. -/
def envBravo : Env :=
  { stateAfter := fun _ => { trivState with article_text := "Bravo" },
    winMarkerAfter := fun _ => false, oracle := none }

/-- Environment reporting three of five title tokens revealed (reveal ratio
`3/5`) after every guess. -/
def envRatio : Env :=
  { stateAfter := fun _ =>
      { trivState with title_revealed_count := 3, title_token_count := 5 },
    winMarkerAfter := fun _ => false, oracle := none }

/-- Environment whose Oracle always answers with a malformed response body. -/
def envMalformed : Env :=
  { stateAfter := fun _ => trivState, winMarkerAfter := fun _ => false,
    oracle := some fun _ => OracleResp.malformed }

/-! ### Helper lemmas -/

theorem parse_rgb_red : parse_rgb "rgb(255,0,0)" = some (255, 0, 0) := by
  have h : parse_rgb "rgb(255,0,0)" =
      some (truncQ ((1 : ℚ) * ((255 : ℕ) : ℚ)), truncQ ((1 : ℚ) * ((0 : ℕ) : ℚ)),
        truncQ ((1 : ℚ) * ((0 : ℕ) : ℚ))) := by
    rfl
  rw [h]
  norm_num [truncQ]

theorem parse_rgb_yellow : parse_rgb "rgb(255,255,0)" = some (255, 255, 0) := by
  have h : parse_rgb "rgb(255,255,0)" =
      some (truncQ ((1 : ℚ) * ((255 : ℕ) : ℚ)), truncQ ((1 : ℚ) * ((255 : ℕ) : ℚ)),
        truncQ ((1 : ℚ) * ((0 : ℕ) : ℚ))) := by
    rfl
  rw [h]
  norm_num [truncQ]

theorem tokenRevealed_none_or_tokenHint_none (t : RawToken) :
    tokenRevealed t = none ∨ tokenHint t = none := by
  unfold tokenRevealed tokenHint
  cases t.text with
  | none => exact Or.inl rfl
  | some txt =>
    by_cases h : looks_like_hint (tokenColor t) = true
    · exact Or.inl (by simp [h])
    · exact Or.inr (by simp [h])

theorem revealed_add_hints_le_length (l : List RawToken) :
    (l.filterMap tokenRevealed).length + (l.filterMap tokenHint).length ≤ l.length := by
  induction l with
  | nil => simp
  | cons t l ih =>
    rcases tokenRevealed_none_or_tokenHint_none t with h | h
    · cases hh : tokenHint t <;>
        simp [List.filterMap_cons, h, hh] <;> omega
    · cases hr : tokenRevealed t <;>
        simp [List.filterMap_cons, h, hr] <;> omega

theorem mem_placeholder_data (tid len : Option ℤ) (pre : String) :
    '⟦' ∈ (placeholder tid len pre).data := by
  unfold placeholder
  cases len with
  | none => simp [String.data_append]
  | some n =>
    by_cases h : 0 < n <;> simp [h, String.data_append]

theorem emitWord_of_hint (t : RawToken) (h : tokenIsHint t = true) :
    emitWord t = placeholder t.id t.hiddenLen (tokenPre t) := by
  unfold emitWord
  unfold tokenIsHint at h
  cases ht : t.text with
  | none => rfl
  | some txt =>
    rw [ht] at h
    simp only [] at h
    simp [h]

/-! ### Claim theorems for the token classifier -/

/-- C6: a color string that does not parse as `rgb(r,g,b)` scores `0` (the
score function is total, so no exception is possible); a parsed triple scores
`((r/255)+(g/255))/2 − (1/2)·(b/255)` clamped to `[0,1]`; every score lies in
`[0,1]`; and pure yellow `rgb(255,255,0)` scores strictly higher than pure red
`rgb(255,0,0)`. -/
theorem C6_hint_score_spec :
    (∀ s : String, parse_rgb s = none → hint_score_from_color s = 0) ∧
    (∀ (s : String) (r g b : ℤ), parse_rgb s = some (r, g, b) →
      hint_score_from_color s =
        max 0 (min 1 (((r : ℚ) / 255 + (g : ℚ) / 255) / 2 - (1 / 2) * ((b : ℚ) / 255)))) ∧
    (∀ s : String, 0 ≤ hint_score_from_color s ∧ hint_score_from_color s ≤ 1) ∧
    hint_score_from_color "rgb(255,0,0)" < hint_score_from_color "rgb(255,255,0)" := by
  refine ⟨fun s h => by simp [hint_score_from_color, h],
    fun s r g b h => by simp [hint_score_from_color, h], fun s => ?_, ?_⟩
  · unfold hint_score_from_color
    cases h : parse_rgb s with
    | none => norm_num
    | some t =>
      obtain ⟨r, g, b⟩ := t
      exact ⟨le_max_left _ _, max_le (by norm_num) (min_le_left _ _)⟩
  · simp [hint_score_from_color, parse_rgb_red, parse_rgb_yellow]
    norm_num

/-- C6 witness: the conditional parts of `C6_hint_score_spec` at the concrete
color `rgb(255,0,0)` and at the unparsable color `red`. -/
theorem C6_hint_score_spec_witness :
    hint_score_from_color "red" = 0 ∧
    hint_score_from_color "rgb(255,0,0)" =
      max 0 (min 1 (((255 : ℚ) / 255 + (0 : ℚ) / 255) / 2 - (1 / 2) * ((0 : ℚ) / 255))) :=
  ⟨C6_hint_score_spec.1 "red" (by rfl),
   C6_hint_score_spec.2.1 "rgb(255,0,0)" 255 0 0 parse_rgb_red⟩

/-- C7: the placeholder for a hidden or hinted token is
`⟦<section><id>~<len>⟧` when a positive hidden length was measured and
`⟦<section><id>⟧` otherwise, with `-1` standing for a missing id; a hidden
token emits exactly this placeholder with section letter `t` (title) or `w`
(body); concretely, a hidden body token with id 12 and hidden length 5 emits
`⟦w12~5⟧` and a hidden title token with id 3 and no measured length emits
`⟦t3⟧`. -/
theorem C7_placeholder_spec :
    (∀ (tid : Option ℤ) (n : ℤ) (pre : String), 0 < n →
      placeholder tid (some n) pre =
        "⟦" ++ pre ++ toString (tid.getD (-1)) ++ "~" ++ toString n ++ "⟧") ∧
    (∀ (tid : Option ℤ) (pre : String),
      placeholder tid none pre = "⟦" ++ pre ++ toString (tid.getD (-1)) ++ "⟧") ∧
    (∀ (tid : Option ℤ) (n : ℤ) (pre : String), ¬ 0 < n →
      placeholder tid (some n) pre = "⟦" ++ pre ++ toString (tid.getD (-1)) ++ "⟧") ∧
    (∀ t : RawToken, t.text = none →
      emitWord t = placeholder t.id t.hiddenLen (tokenPre t)) ∧
    emitWord ⟨some 12, none, some 5, some "", some "", false⟩ = "⟦w12~5⟧" ∧
    emitWord ⟨some 3, none, none, some "", some "", true⟩ = "⟦t3⟧" ∧
    placeholder none (some 5) "w" = "⟦w-1~5⟧" := by
  refine ⟨fun tid n pre h => by simp [placeholder, h],
    fun tid pre => by simp [placeholder],
    fun tid n pre h => by simp [placeholder, h],
    fun t ht => by simp [emitWord, ht],
    by rfl, by rfl, by rfl⟩

/-- C7 witness: the conditional parts of `C7_placeholder_spec` at a concrete
id, length and hidden token. -/
theorem C7_placeholder_spec_witness :
    placeholder (some 12) (some 5) "w" =
      "⟦" ++ "w" ++ toString ((some (12 : ℤ)).getD (-1)) ++ "~" ++ toString (5 : ℤ) ++ "⟧" ∧
    placeholder (some 3) (some 0) "t" =
      "⟦" ++ "t" ++ toString ((some (3 : ℤ)).getD (-1)) ++ "⟧" ∧
    emitWord ⟨some 7, none, some 2, some "", some "", true⟩ =
      placeholder (some 7) (some 2) "t" :=
  ⟨C7_placeholder_spec.1 (some 12) 5 "w" (by norm_num),
   C7_placeholder_spec.2.2.1 (some 3) 0 "t" (by norm_num),
   C7_placeholder_spec.2.2.2.1 ⟨some 7, none, some 2, some "", some "", true⟩ rfl⟩

/-- C8: in every processed token batch each token is classified into exactly
one of hidden, hinted or revealed, so the revealed count plus the number of
recorded hint words never exceeds the token count; and a hinted token
contributes its placeholder — not its raw text — to the reconstructed text:
its emitted string is the placeholder, which always contains `⟦` and hence
differs from any raw token text not containing that character. -/
theorem C8_classification_invariant :
    ∀ tokens : List RawToken,
      (process_tokens tokens).revealedCount + (process_tokens tokens).hintWords.length ≤
        (process_tokens tokens).tokenCount ∧
      (∀ t ∈ tokens, tokenIsHint t = true →
        emitWord t = placeholder t.id t.hiddenLen (tokenPre t)) ∧
      (∀ t ∈ tokens, ∀ txt : String, t.text = some txt → tokenIsHint t = true →
        ¬ '⟦' ∈ txt.data → emitWord t ≠ txt) := by
  intro tokens
  refine ⟨revealed_add_hints_le_length tokens,
    fun t _ h => emitWord_of_hint t h,
    fun t _ txt _ h hmem heq => ?_⟩
  apply hmem
  rw [← heq, emitWord_of_hint t h]
  exact mem_placeholder_data t.id t.hiddenLen (tokenPre t)

/-- C8 witness: `C8_classification_invariant` at a concrete batch of one
hidden, one hinted and one revealed token. -/
theorem C8_classification_invariant_witness :
    (process_tokens
        [⟨some 1, none, some 4, some "", some "", false⟩,
         ⟨some 2, some "lune", none, some "rgb(200, 120, 0)", some "", false⟩,
         ⟨some 3, some "mer", none, some "rgb(32, 33, 34)", some "", false⟩]).revealedCount +
      (process_tokens
        [⟨some 1, none, some 4, some "", some "", false⟩,
         ⟨some 2, some "lune", none, some "rgb(200, 120, 0)", some "", false⟩,
         ⟨some 3, some "mer", none, some "rgb(32, 33, 34)", some "", false⟩]).hintWords.length ≤
      (process_tokens
        [⟨some 1, none, some 4, some "", some "", false⟩,
         ⟨some 2, some "lune", none, some "rgb(200, 120, 0)", some "", false⟩,
         ⟨some 3, some "mer", none, some "rgb(32, 33, 34)", some "", false⟩]).tokenCount ∧
    emitWord ⟨some 2, some "lune", none, some "rgb(200, 120, 0)", some "", false⟩ ≠ "lune" :=
  ⟨(C8_classification_invariant _).1,
   (C8_classification_invariant
      [⟨some 2, some "lune", none, some "rgb(200, 120, 0)", some "", false⟩]).2.2
      _ (by simp) "lune" rfl (by rfl) (by decide)⟩

/-- C10: the solved flag of the `GameState` built by `read_state` is exactly
the presence of a (non-empty) solution-link href: it equals
`solution_url.isSome`, and — independently of both token arrays, hence of any
win marker or success text — it is true exactly when the extracted
`solutionHref` attribute is a non-empty string. -/
theorem C10_solved_iff_solution_url :
    ∀ (tT aT : List RawToken) (href : Option String),
      (read_state tT aT href).solved = (read_state tT aT href).solution_url.isSome ∧
      (read_state tT aT href).solved = decide (href.getD "" ≠ "") := by
  intro tT aT href
  cases href with
  | none => simp [read_state]
  | some s =>
    by_cases h : s = "" <;> simp [read_state, h]


/-! ### Lemmas about first-seen deduplication -/

theorem dedupAux_sublist {α : Type} [DecidableEq α] (seen : List α) (l : List α) :
    List.Sublist (dedupAux seen l) l := by
  induction l generalizing seen with
  | nil => simp [dedupAux]
  | cons x xs ih =>
    by_cases h : x ∈ seen
    · simpa [dedupAux, h] using (ih seen).cons x
    · simpa [dedupAux, h] using (ih (x :: seen)).cons₂ x

theorem dedupAux_mem {α : Type} [DecidableEq α] (seen : List α) (l : List α) (x : α) :
    x ∈ dedupAux seen l ↔ x ∈ l ∧ x ∉ seen := by
  induction l generalizing seen with
  | nil => simp [dedupAux]
  | cons y xs ih =>
    by_cases h : y ∈ seen
    · rw [dedupAux, if_pos h, ih]
      constructor
      · rintro ⟨h1, h2⟩
        exact ⟨List.mem_cons_of_mem y h1, h2⟩
      · rintro ⟨h1, h2⟩
        rcases List.mem_cons.1 h1 with rfl | h1
        · exact absurd h h2
        · exact ⟨h1, h2⟩
    · rw [dedupAux, if_neg h]
      simp only [List.mem_cons, ih, List.mem_cons]
      by_cases hxy : x = y
      · subst hxy
        simp [h]
      · simp [hxy]

theorem dedupAux_nodup {α : Type} [DecidableEq α] (seen : List α) (l : List α) :
    (dedupAux seen l).Nodup := by
  induction l generalizing seen with
  | nil => simp [dedupAux]
  | cons y xs ih =>
    by_cases h : y ∈ seen
    · rw [dedupAux, if_pos h]
      exact ih seen
    · rw [dedupAux, if_neg h]
      refine List.Nodup.cons ?_ (ih (y :: seen))
      intro hy
      exact ((dedupAux_mem (y :: seen) xs y).1 hy).2 (List.mem_cons_self y seen)

/-! ### Lemmas about the hint-map merge -/

theorem lookupScore_hintInsert (m : List (String × ℚ)) (hw : HintWord) (x : String) :
    lookupScore (hintInsert m hw) x =
      if x = hw.word then some (updateScore (lookupScore m x) hw.score)
      else lookupScore m x := by
  by_cases hx : x = hw.word
  · rw [if_pos hx]
    subst hx
    induction m with
    | nil => simp [hintInsert, lookupScore, updateScore]
    | cons p rest ih =>
      obtain ⟨w, s⟩ := p
      by_cases h1 : w = hw.word
      · simp [hintInsert, lookupScore, h1, updateScore]
      · simp [hintInsert, lookupScore, h1, ih]
  · rw [if_neg hx]
    have hx' : ¬ hw.word = x := fun hh => hx hh.symm
    induction m with
    | nil => simp [hintInsert, lookupScore, hx']
    | cons p rest ih =>
      obtain ⟨w, s⟩ := p
      by_cases h1 : w = hw.word
      · simp [hintInsert, lookupScore, h1, hx']
      · by_cases h2 : w = x
        · simp [hintInsert, lookupScore, h1, h2, hx, hx']
        · simp [hintInsert, lookupScore, h1, h2, ih]

theorem keysOf_hintInsert (m : List (String × ℚ)) (hw : HintWord) :
    keysOf (hintInsert m hw) =
      if hw.word ∈ keysOf m then keysOf m else keysOf m ++ [hw.word] := by
  induction m with
  | nil => simp [hintInsert, keysOf]
  | cons p rest ih =>
    obtain ⟨w, s⟩ := p
    by_cases h : w = hw.word
    · simp [hintInsert, keysOf, h]
    · have h' : ¬ hw.word = w := fun hh => h hh.symm
      simp only [hintInsert, if_neg h, keysOf, List.map_cons, List.mem_cons, h', false_or]
      by_cases hmem : hw.word ∈ List.map Prod.fst rest
      · simp only [if_pos hmem]
        have := ih
        simp only [keysOf, if_pos hmem] at this
        rw [this]
      · simp only [if_neg hmem]
        have := ih
        simp only [keysOf, if_neg hmem] at this
        rw [this, List.cons_append]

theorem mem_iff_lookupScore (m : List (String × ℚ)) (w : String) (s : ℚ)
    (hnd : (keysOf m).Nodup) : (w, s) ∈ m ↔ lookupScore m w = some s := by
  induction m with
  | nil => simp [lookupScore]
  | cons p rest ih =>
    obtain ⟨w', s'⟩ := p
    simp only [keysOf, List.map_cons, List.nodup_cons] at hnd
    by_cases h : w' = w
    · subst h
      rw [lookupScore, if_pos rfl]
      constructor
      · intro hmem
        rcases List.mem_cons.1 hmem with heq | hmem
        · rw [Prod.ext_iff] at heq
          exact congrArg some heq.2.symm
        · exact absurd (List.mem_map_of_mem Prod.fst hmem) hnd.1
      · intro hl
        rw [Option.some_inj] at hl
        rw [hl]
        exact List.mem_cons_self _ _
    · have h' : ¬ (w, s) = (w', s') := fun hh => h (congrArg Prod.fst hh).symm
      simp only [lookupScore, if_neg h, List.mem_cons, h', false_or]
      exact ih hnd.2

theorem keysOf_foldl_nodup (hs : List HintWord) :
    ∀ m : List (String × ℚ), (keysOf m).Nodup → (keysOf (hs.foldl hintInsert m)).Nodup := by
  induction hs with
  | nil =>
    intro m h
    simpa using h
  | cons hw hs ih =>
    intro m h
    simp only [List.foldl_cons]
    apply ih
    rw [keysOf_hintInsert]
    by_cases hmem : hw.word ∈ keysOf m
    · simpa [hmem] using h
    · simp only [if_neg hmem, List.nodup_append]
      refine ⟨h, List.nodup_singleton _, ?_⟩
      intro a ha hb
      rw [List.mem_singleton] at hb
      subst hb
      exact hmem ha

theorem keysOf_mergeHints_nodup (hs : List HintWord) : (keysOf (mergeHints hs)).Nodup :=
  keysOf_foldl_nodup hs [] (by simp [keysOf])

theorem lookupScore_foldl (hs : List HintWord) :
    ∀ (m : List (String × ℚ)) (x : String),
      lookupScore (hs.foldl hintInsert m) x = maxScoreAcc (lookupScore m x) (scoresOf x hs) := by
  induction hs with
  | nil =>
    intro m x
    simp [maxScoreAcc, scoresOf]
  | cons hw hs ih =>
    intro m x
    simp only [List.foldl_cons]
    rw [ih, lookupScore_hintInsert]
    by_cases h : x = hw.word
    · subst h
      simp [scoresOf, maxScoreAcc, List.filter_cons]
    · have h' : ¬ hw.word = x := fun hh => h hh.symm
      simp [scoresOf, maxScoreAcc, List.filter_cons, h, h']

theorem lookupScore_mergeHints (hs : List HintWord) (x : String) :
    lookupScore (mergeHints hs) x = maxScoreAcc none (scoresOf x hs) := by
  simpa [lookupScore] using lookupScore_foldl hs [] x

theorem le_updateScore (acc : Option ℚ) (s : ℚ) : s ≤ updateScore acc s := by
  cases acc with
  | none => simp [updateScore]
  | some p =>
    simp only [updateScore]
    split_ifs with h
    · exact le_refl s
    · linarith

theorem updateScore_ge_acc (p : ℚ) (s : ℚ) : p ≤ updateScore (some p) s := by
  simp only [updateScore]
  split_ifs with h
  · linarith
  · exact le_refl p

theorem maxScoreAcc_spec (l : List ℚ) :
    ∀ (acc : Option ℚ) (s : ℚ), maxScoreAcc acc l = some s →
      (s ∈ l ∨ acc = some s) ∧ (∀ x ∈ l, x ≤ s) ∧ (∀ p, acc = some p → p ≤ s) := by
  induction l with
  | nil =>
    intro acc s h
    simp only [maxScoreAcc, List.foldl_nil] at h
    refine ⟨Or.inr h, by simp, fun p hp => ?_⟩
    rw [hp] at h
    exact le_of_eq (Option.some_inj.1 h)
  | cons a l ih =>
    intro acc s h
    simp only [maxScoreAcc, List.foldl_cons] at h
    obtain ⟨h1, h2, h3⟩ := ih (some (updateScore acc a)) s h
    have hua : updateScore acc a ≤ s := h3 _ rfl
    have ha : a ≤ s := le_trans (le_updateScore acc a) hua
    refine ⟨?_, ?_, ?_⟩
    · rcases h1 with h1 | h1
      · exact Or.inl (List.mem_cons_of_mem a h1)
      · injection h1 with h1
        cases acc with
        | none =>
          simp only [updateScore] at h1
          exact Or.inl (h1 ▸ List.mem_cons_self a l)
        | some p =>
          simp only [updateScore] at h1
          by_cases hp : p < a
          · rw [if_pos hp] at h1
            exact Or.inl (h1 ▸ List.mem_cons_self a l)
          · rw [if_neg hp] at h1
            exact Or.inr (by rw [h1])
    · intro x hx
      rcases List.mem_cons.1 hx with rfl | hx
      · exact ha
      · exact h2 x hx
    · intro p hp
      subst hp
      exact le_trans (updateScore_ge_acc _ _) hua

theorem maxScoreAcc_ne_none (l : List ℚ) :
    ∀ p : ℚ, maxScoreAcc (some p) l ≠ none := by
  induction l with
  | nil =>
    intro p h
    simp [maxScoreAcc] at h
  | cons a l ih =>
    intro p h
    simp only [maxScoreAcc, List.foldl_cons] at h
    exact ih (updateScore (some p) a) h

theorem mem_map_mk (M : List (String × ℚ)) (h : HintWord) :
    h ∈ M.map (fun p => (⟨p.1, p.2⟩ : HintWord)) ↔ (h.word, h.score) ∈ M := by
  simp only [List.mem_map]
  constructor
  · rintro ⟨⟨a, b⟩, hm, rfl⟩
    exact hm
  · intro hm
    exact ⟨(h.word, h.score), hm, rfl⟩

theorem scoresOf_mem (x : String) (hs : List HintWord) (q : ℚ) :
    q ∈ scoresOf x hs ↔ ∃ h ∈ hs, h.word = x ∧ h.score = q := by
  simp only [scoresOf, List.mem_map, List.mem_filter, decide_eq_true_eq]
  constructor
  · rintro ⟨h, ⟨hm, hw⟩, hq⟩
    exact ⟨h, hm, hw, hq⟩
  · rintro ⟨h, hm, hw, hq⟩
    exact ⟨h, ⟨hm, hw⟩, hq⟩

theorem map_word_map_mk (M : List (String × ℚ)) :
    (M.map (fun p => (⟨p.1, p.2⟩ : HintWord))).map HintWord.word = keysOf M := by
  simp only [keysOf, List.map_map]
  rfl

/-- C9: for every pair of per-section classification results, the merged
`GameState` satisfies: `revealed_words` is the title-first concatenation of
the two sections' revealed words deduplicated preserving first-seen order
(an order-preserving sublist, duplicate-free, with exactly the words of the
concatenation); `hint_words` is sorted by descending score, carries each
distinct hint word exactly once, and assigns it the maximum score seen for
that word across both sections; and `new_reveal_ids` is the sorted,
duplicate-free union of both sections' newly-revealed ids. -/
theorem C9_merge_spec :
    ∀ (tT aT : List RawToken) (href : Option String),
      ((read_state tT aT href).revealed_words.Sublist
          ((process_tokens tT).revealedWords ++ (process_tokens aT).revealedWords) ∧
       (read_state tT aT href).revealed_words.Nodup ∧
       (∀ w, w ∈ (read_state tT aT href).revealed_words ↔
          w ∈ (process_tokens tT).revealedWords ++ (process_tokens aT).revealedWords)) ∧
      ((read_state tT aT href).hint_words.Pairwise (fun a b => b.score ≤ a.score) ∧
       ((read_state tT aT href).hint_words.map HintWord.word).Nodup ∧
       (∀ h ∈ (read_state tT aT href).hint_words,
         (∃ h0 ∈ (process_tokens tT).hintWords ++ (process_tokens aT).hintWords,
            h0.word = h.word ∧ h0.score = h.score) ∧
         (∀ h' ∈ (process_tokens tT).hintWords ++ (process_tokens aT).hintWords,
            h'.word = h.word → h'.score ≤ h.score)) ∧
       (∀ h0 ∈ (process_tokens tT).hintWords ++ (process_tokens aT).hintWords,
          ∃ h ∈ (read_state tT aT href).hint_words, h.word = h0.word)) ∧
      ((read_state tT aT href).new_reveal_ids.Sorted (fun a b : ℤ => a ≤ b) ∧
       (read_state tT aT href).new_reveal_ids.Nodup ∧
       (∀ i, i ∈ (read_state tT aT href).new_reveal_ids ↔
          i ∈ (process_tokens tT).newRevealIds ++ (process_tokens aT).newRevealIds)) := by
  intro tT aT href
  have hrev : (read_state tT aT href).revealed_words =
      dedupKeepFirst ((process_tokens tT).revealedWords ++ (process_tokens aT).revealedWords) := by
    simp [read_state]
  have hhint : (read_state tT aT href).hint_words =
      List.insertionSort hintGE
        ((mergeHints ((process_tokens tT).hintWords ++ (process_tokens aT).hintWords)).map
          fun p => ⟨p.1, p.2⟩) := by
    simp [read_state]
  have hids : (read_state tT aT href).new_reveal_ids =
      List.insertionSort (fun a b : ℤ => a ≤ b)
        (dedupKeepFirst ((process_tokens tT).newRevealIds ++ (process_tokens aT).newRevealIds)) := by
    simp [read_state]
  set allH := (process_tokens tT).hintWords ++ (process_tokens aT).hintWords with hallH
  set M := mergeHints allH with hM
  have hMnodup : (keysOf M).Nodup := keysOf_mergeHints_nodup allH
  have hperm : List.Perm (List.insertionSort hintGE (M.map fun p => ⟨p.1, p.2⟩))
      (M.map fun p => ⟨p.1, p.2⟩) := List.perm_insertionSort _ _
  refine ⟨⟨?_, ?_, ?_⟩, ⟨?_, ?_, ?_, ?_⟩, ⟨?_, ?_, ?_⟩⟩
  · rw [hrev]
    exact dedupAux_sublist [] _
  · rw [hrev]
    exact dedupAux_nodup [] _
  · intro w
    rw [hrev]
    unfold dedupKeepFirst
    rw [dedupAux_mem]
    simp
  · rw [hhint]
    exact List.sorted_insertionSort hintGE _
  · rw [hhint]
    rw [List.Perm.nodup_iff (hperm.map HintWord.word)]
    rw [map_word_map_mk]
    exact hMnodup
  · intro h hm
    rw [hhint] at hm
    have hm2 : (h.word, h.score) ∈ M := (mem_map_mk M h).1 (hperm.mem_iff.1 hm)
    have hl : lookupScore M h.word = some h.score := (mem_iff_lookupScore M _ _ hMnodup).1 hm2
    rw [hM, lookupScore_mergeHints] at hl
    obtain ⟨hmem, hub, _⟩ := maxScoreAcc_spec _ _ _ hl
    rcases hmem with hmem | hmem
    swap
    · exact absurd hmem (by simp)
    constructor
    · obtain ⟨h0, hh0, hw0, hs0⟩ := (scoresOf_mem _ _ _).1 hmem
      exact ⟨h0, hh0, hw0, hs0⟩
    · intro h' hh' hw'
      exact hub _ ((scoresOf_mem _ _ _).2 ⟨h', hh', hw', rfl⟩)
  · intro h0 hh0
    have hne : scoresOf h0.word allH ≠ [] := by
      intro hemp
      have hsc : h0.score ∈ scoresOf h0.word allH := (scoresOf_mem _ _ _).2 ⟨h0, hh0, rfl, rfl⟩
      rw [hemp] at hsc
      exact absurd hsc (List.not_mem_nil _)
    obtain ⟨q, hq⟩ : ∃ q, maxScoreAcc none (scoresOf h0.word allH) = some q := by
      cases hsc : scoresOf h0.word allH with
      | nil => exact absurd hsc hne
      | cons a l =>
        cases hmax : maxScoreAcc none (a :: l) with
        | none =>
          exfalso
          simp only [maxScoreAcc, List.foldl_cons] at hmax
          exact maxScoreAcc_ne_none l _ hmax
        | some q => exact ⟨q, rfl⟩
    have hl : lookupScore M h0.word = some q := by
      rw [hM, lookupScore_mergeHints]
      exact hq
    have hm2 : (h0.word, q) ∈ M := (mem_iff_lookupScore M _ _ hMnodup).2 hl
    refine ⟨⟨h0.word, q⟩, ?_, rfl⟩
    rw [hhint]
    exact hperm.mem_iff.2 ((mem_map_mk M ⟨h0.word, q⟩).2 hm2)
  · rw [hids]
    exact List.sorted_insertionSort _ _
  · rw [hids]
    rw [List.Perm.nodup_iff (List.perm_insertionSort _ _)]
    exact dedupAux_nodup [] _
  · intro i
    rw [hids]
    rw [(List.perm_insertionSort (fun a b : ℤ => a ≤ b) _).mem_iff]
    unfold dedupKeepFirst
    rw [dedupAux_mem]
    simp

/-- A candidate that trims to empty or to an already-tested word leaves the
loop state unchanged. -/
theorem afterPop_skip (env : Env) (p : Params) (s : LoopState) (w0 : String)
    (h : pyStrip w0 = "" ∨ pyStrip w0 ∈ s.tested) :
    afterPop env p s w0 = StepRes.cont s := by
  simp only [afterPop]
  rw [if_pos h]

/-- The guess counter tracks the submission history through `afterPop`. -/
theorem afterPop_counts (env : Env) (p : Params) (s : LoopState) (w0 : String)
    (hI : s.guesses = s.history.length) :
    (∀ s', afterPop env p s w0 = StepRes.cont s' → s'.guesses = s'.history.length) ∧
    (∀ r s', afterPop env p s w0 = StepRes.done r s' → r.guesses_made = s'.history.length) ∧
    (∀ s', afterPop env p s w0 ≠ StepRes.exn s') := by
  by_cases h1 : pyStrip w0 = "" ∨ pyStrip w0 ∈ s.tested
  · rw [afterPop_skip env p s w0 h1]
    refine ⟨fun s' h => ?_, fun r s' h => ?_, fun s' h => ?_⟩
    · injection h with h
      rw [← h]
      exact hI
    · exact absurd h (by simp)
    · exact absurd h (by simp)
  · simp only [afterPop]
    rw [if_neg h1]
    by_cases h2 : p.maxGuesses < s.guesses + 1
    · rw [if_pos h2]
      refine ⟨fun s' h => ?_, fun r s' h => ?_, fun s' h => ?_⟩
      · exact absurd h (by simp)
      · injection h with hr hs
        rw [← hr, ← hs]
        simpa using hI
      · exact absurd h (by simp)
    · rw [if_neg h2]
      by_cases h3 : is_solved (env.winMarkerAfter (s.history ++ [pyStrip w0]))
          (env.stateAfter (s.history ++ [pyStrip w0])) = true
      · simp only [h3, if_true]
        refine ⟨fun s' h => ?_, fun r s' h => ?_, fun s' h => ?_⟩
        · exact absurd h (by simp)
        · injection h with hr hs
          rw [← hr, ← hs]
          simp [hI]
        · exact absurd h (by simp)
      · simp only [eq_false_of_ne_true h3, if_false]
        by_cases h4 : s.mode = Mode.warmup ∧
            (reveal_ratio (env.stateAfter (s.history ++ [pyStrip w0])) ≥ p.revealThreshold ∨
             p.words.getLast? = some (pyStrip w0))
        · rw [if_pos h4]
          refine ⟨fun s' h => ?_, fun r s' h => ?_, fun s' h => ?_⟩
          · injection h with h
            rw [← h]
            simp [hI]
          · exact absurd h (by simp)
          · exact absurd h (by simp)
        · rw [if_neg h4]
          refine ⟨fun s' h => ?_, fun r s' h => ?_, fun s' h => ?_⟩
          · injection h with h
            rw [← h]
            simp [hI]
          · exact absurd h (by simp)
          · exact absurd h (by simp)

/-- The guess counter tracks the submission history through one loop step. -/
theorem step_counts (env : Env) (p : Params) (s : LoopState)
    (hI : s.guesses = s.history.length) :
    (∀ s', step env p s = StepRes.cont s' → s'.guesses = s'.history.length) ∧
    (∀ r s', step env p s = StepRes.done r s' → r.guesses_made = s'.history.length) := by
  obtain ⟨g, tst, m, wr, pd, hist, pc⟩ := s
  simp only at hI
  cases m with
  | warmup =>
    cases wr with
    | nil =>
      simp only [step]
      refine ⟨fun s' h => ?_, fun r s' h => ?_⟩
      · injection h with h
        rw [← h]
        exact hI
      · exact absurd h (by simp)
    | cons w rest =>
      simp only [step]
      obtain ⟨hc, hd, _⟩ := afterPop_counts env p ⟨g, tst, Mode.warmup, rest, pd, hist, pc⟩ w hI
      exact ⟨hc, hd⟩
  | llm =>
    cases pd with
    | cons w rest =>
      simp only [step]
      obtain ⟨hc, hd, _⟩ := afterPop_counts env p ⟨g, tst, Mode.llm, wr, rest, hist, pc⟩ w hI
      exact ⟨hc, hd⟩
    | nil =>
      cases ho : env.oracle with
      | none =>
        simp only [step, ho]
        refine ⟨fun s' h => ?_, fun r s' h => ?_⟩
        · exact absurd h (by simp)
        · injection h with hr hs
          rw [← hr, ← hs]
          exact hI
      | some orc =>
        cases hresp : suggest_words (orc hist) (sortStrings tst)
            ((env.stateAfter hist).revealed_words) with
        | error e =>
          simp only [step, ho, hresp]
          refine ⟨fun s' h => ?_, fun r s' h => ?_⟩
          · exact absurd h (by simp)
          · exact absurd h (by simp)
        | ok ws =>
          cases htake : ws.take p.llmBatchSize with
          | nil =>
            simp only [step, ho, hresp, htake]
            refine ⟨fun s' h => ?_, fun r s' h => ?_⟩
            · exact absurd h (by simp)
            · injection h with hr hs
              rw [← hr, ← hs]
              exact hI
          | cons w rest =>
            simp only [step, ho, hresp, htake]
            obtain ⟨hc, hd, _⟩ := afterPop_counts env p ⟨g, tst, Mode.llm, wr, rest, hist, pc⟩ w hI
            exact ⟨hc, hd⟩

/-- Any normal result of the fueled loop reports exactly the number of
submitted words. -/
theorem runLoop_counts (env : Env) (p : Params) :
    ∀ (fuel : Nat) (s : LoopState), s.guesses = s.history.length →
      ∀ (r : RunResult) (sf : LoopState),
        runLoop env p fuel s = some (RunOutcome.ok r, sf) → r.guesses_made = sf.history.length := by
  intro fuel
  induction fuel with
  | zero => intro s _ r sf h; exact absurd h (by simp [runLoop])
  | succ fuel ih =>
    intro s hI r sf h
    simp only [runLoop] at h
    cases hstep : step env p s with
    | cont s' =>
      rw [hstep] at h
      exact ih s' ((step_counts env p s hI).1 s' hstep) r sf h
    | done r' s' =>
      rw [hstep] at h
      injection h with h
      obtain ⟨h1, h2⟩ := Prod.mk.injEq _ _ _ _ ▸ h
      injection h1 with h1
      rw [← h1, ← (by exact h2 : s' = sf)]
      exact (step_counts env p s hI).2 r' s' hstep
    | exn s' =>
      rw [hstep] at h
      injection h with h
      exact absurd (congrArg Prod.fst h) (by simp)

/-- C1 counterexample: with warm-up list `["Chat", "chat"]`, the candidate
`chat` differs from the already-tested `Chat` only in letter case, yet it is
not skipped: it is submitted to the Renderer (the interaction history holds
both words), consumes a guess (the counter reaches 2) and is paced — because
the dedup test of the run loop compares exact trimmed strings, with no case
normalization. -/
theorem C1_counterexample_case_sensitive :
    run envTriv ⟨["Chat", "chat"], 200, 1, 10⟩ 10 =
      some (RunOutcome.ok ⟨2, false⟩,
        { guesses := 2, tested := ["Chat", "chat"], mode := Mode.llm,
          warmupRemaining := [], pending := [], history := ["Chat", "chat"], paces := 2 }) := by
  rfl

/-- C1 amended: for every candidate word popped in either mode, the run loop
trims it and, if it is empty or *exactly equal* (case-sensitively) to an
already-tested word, skips it silently: the loop continues with only the
source queue advanced, so the guess counter, the tested set, the submission
history and the pacing counter are all unchanged.  (The claim's
case-normalized dedup does not hold — see the counterexample — dedup is by
exact string equality after trimming.) -/
theorem C1_amended_skip_spec (env : Env) (p : Params) (s : LoopState) (w : String) (rest : List String)
    (hskip : pyStrip w = "" ∨ pyStrip w ∈ s.tested) :
    (s.mode = Mode.warmup → s.warmupRemaining = w :: rest →
      step env p s = StepRes.cont { s with warmupRemaining := rest }) ∧
    (s.mode = Mode.llm → s.pending = w :: rest →
      step env p s = StepRes.cont { s with pending := rest }) := by
  obtain ⟨g, tst, m, wr, pd, hist, pc⟩ := s
  constructor
  · intro hm hl
    simp only at hm hl
    subst hm
    subst hl
    simp only [step]
    exact afterPop_skip env p _ w hskip
  · intro hm hl
    simp only at hm hl
    subst hm
    subst hl
    simp only [step]
    exact afterPop_skip env p _ w hskip

/-- C1 witness: `C1_amended_skip_spec` at a concrete mid-run state whose
tested set already holds `chat`. -/
theorem C1_amended_skip_spec_witness :
    step envTriv ⟨["chat"], 200, 1, 10⟩ ⟨1, ["chat"], Mode.warmup, ["chat"], [], ["chat"], 1⟩ =
      StepRes.cont ⟨1, ["chat"], Mode.warmup, [], [], ["chat"], 1⟩ :=
  (C1_amended_skip_spec envTriv ⟨["chat"], 200, 1, 10⟩
      ⟨1, ["chat"], Mode.warmup, ["chat"], [], ["chat"], 1⟩ "chat" []
      (Or.inr (by decide))).1 rfl rfl

/-- C2: whenever `run` returns a normal result, `guesses_made` equals the
number of words actually submitted to the Renderer (the final interaction
history length); and in the concrete scenario with guess budget 3 and four
distinct non-empty untested candidates, the run terminates with
`guesses_made = 3`, `solved = false`, and a final history of exactly the
first three words — the fourth candidate is never submitted. -/
theorem C2_budget_spec :
    (∀ (env : Env) (p : Params) (fuel : Nat) (r : RunResult) (sf : LoopState),
      run env p fuel = some (RunOutcome.ok r, sf) → r.guesses_made = sf.history.length) ∧
    run envTriv ⟨["un", "deux", "trois", "quatre"], 3, 1, 10⟩ 20 =
      some (RunOutcome.ok ⟨3, false⟩,
        { guesses := 4, tested := ["un", "deux", "trois"], mode := Mode.warmup,
          warmupRemaining := [], pending := [], history := ["un", "deux", "trois"],
          paces := 3 }) := by
  constructor
  · intro env p fuel r sf h
    exact runLoop_counts env p fuel (initState p.words) rfl r sf h
  · rfl

/-- C2 witness: `C2_budget_spec` applied to the budget-3 scenario run. -/
theorem C2_budget_spec_witness :
    (⟨3, false⟩ : RunResult).guesses_made =
      ({ guesses := 4, tested := ["un", "deux", "trois"], mode := Mode.warmup,
         warmupRemaining := [], pending := [], history := ["un", "deux", "trois"],
         paces := 3 } : LoopState).history.length :=
  C2_budget_spec.1 envTriv ⟨["un", "deux", "trois", "quatre"], 3, 1, 10⟩ 20 ⟨3, false⟩ _ (by rfl)

/-- C3: after a guess, the run is solved exactly when the Renderer reports a
win marker or the lowercased concatenation of title and body text contains
`bravo` or the stem `gagn`; and whenever a guess is accepted and the fresh
state is solved, the loop iteration returns immediately with `solved = true`
and the current guess count — in either mode and regardless of whether the
warm-up transition condition also holds, since `afterPop` returns before the
transition test is reached. -/
theorem C3_solved_check_spec :
    (∀ (wm : Bool) (st : GameState),
      is_solved wm st =
        (wm || pyIn "bravo" (pyLower (st.title_text ++ " " ++ st.article_text)) ||
         pyIn "gagn" (pyLower (st.title_text ++ " " ++ st.article_text)))) ∧
    (∀ (env : Env) (p : Params) (s : LoopState) (w0 : String),
      ¬ (pyStrip w0 = "" ∨ pyStrip w0 ∈ s.tested) →
      s.guesses + 1 ≤ p.maxGuesses →
      is_solved (env.winMarkerAfter (s.history ++ [pyStrip w0]))
        (env.stateAfter (s.history ++ [pyStrip w0])) = true →
      afterPop env p s w0 = StepRes.done ⟨s.guesses + 1, true⟩
        { s with guesses := s.guesses + 1, tested := s.tested ++ [pyStrip w0],
                 history := s.history ++ [pyStrip w0], paces := s.paces + 1 }) := by
  constructor
  · intro wm st
    cases wm <;> simp [is_solved]
  · intro env p s w0 h1 h2 h3
    simp only [afterPop]
    rw [if_neg h1, if_neg (by omega : ¬ p.maxGuesses < s.guesses + 1)]
    simp only [h3, if_true]

/-- C3 witness: `C3_solved_check_spec` at a warm-up state whose article text
reads `Bravo` after the guess, with a reveal threshold of 0 so that the
warm-up transition condition holds simultaneously: the iteration still
returns `solved = true` immediately. -/
theorem C3_solved_check_spec_witness :
    afterPop envBravo ⟨["chat"], 200, 0, 10⟩ (initState ["chat"]) "chat" =
      StepRes.done ⟨1, true⟩ ⟨1, ["chat"], Mode.warmup, ["chat"], [], ["chat"], 1⟩ := by
  have h := C3_solved_check_spec.2 envBravo ⟨["chat"], 200, 0, 10⟩ (initState ["chat"]) "chat"
    (by decide) (by decide) (by decide)
  exact h

/-- C4: in warm-up mode (with the pending queue empty, as it always is in
warm-up), the mode changes to the suggestion mode exactly when (a) the
warm-up sequence is exhausted, or, after an accepted, within-budget,
non-solving guess, (b) the reveal ratio reaches the threshold or (c) the
trimmed candidate equals the last warm-up word; a skipped candidate never
transitions, and on every transition the pending-suggestion queue is the
empty list (still-pending warm-up words are never consulted again, as the
loop reads only the suggestion queue in the new mode). -/
theorem C4_warmup_transition_spec (env : Env) (p : Params) (s : LoopState)
    (hm : s.mode = Mode.warmup) (hp : s.pending = []) :
    (s.warmupRemaining = [] →
      step env p s = StepRes.cont { s with mode := Mode.llm, pending := [] }) ∧
    (∀ w rest, s.warmupRemaining = w :: rest → (pyStrip w = "" ∨ pyStrip w ∈ s.tested) →
      step env p s = StepRes.cont { s with warmupRemaining := rest }) ∧
    (∀ w rest, s.warmupRemaining = w :: rest →
      ¬ (pyStrip w = "" ∨ pyStrip w ∈ s.tested) →
      s.guesses + 1 ≤ p.maxGuesses →
      is_solved (env.winMarkerAfter (s.history ++ [pyStrip w]))
        (env.stateAfter (s.history ++ [pyStrip w])) = false →
      ((step env p s = StepRes.cont
          { s with warmupRemaining := rest, guesses := s.guesses + 1,
                   tested := s.tested ++ [pyStrip w], history := s.history ++ [pyStrip w],
                   paces := s.paces + 1, mode := Mode.llm, pending := [] } ↔
        (reveal_ratio (env.stateAfter (s.history ++ [pyStrip w])) ≥ p.revealThreshold ∨
         p.words.getLast? = some (pyStrip w))) ∧
       (¬ (reveal_ratio (env.stateAfter (s.history ++ [pyStrip w])) ≥ p.revealThreshold ∨
           p.words.getLast? = some (pyStrip w)) →
         step env p s = StepRes.cont
          { s with warmupRemaining := rest, guesses := s.guesses + 1,
                   tested := s.tested ++ [pyStrip w], history := s.history ++ [pyStrip w],
                   paces := s.paces + 1 }))) := by
  obtain ⟨g, tst, m, wr, pd, hist, pc⟩ := s
  simp only at hm hp
  subst hm
  subst hp
  refine ⟨?_, ?_, ?_⟩
  · intro hw
    simp only at hw
    subst hw
    simp only [step]
  · intro w rest hw hskip
    simp only at hw
    subst hw
    simp only [step]
    exact afterPop_skip env p _ w hskip
  · intro w rest hw hskip hbudget hsolved
    simp only at hw
    subst hw
    simp only at hskip hbudget hsolved
    have hnottrans : ∀ (hc : ¬ (reveal_ratio (env.stateAfter (hist ++ [pyStrip w])) ≥
        p.revealThreshold ∨ p.words.getLast? = some (pyStrip w))),
        step env p ⟨g, tst, Mode.warmup, w :: rest, [], hist, pc⟩ =
          StepRes.cont ⟨g + 1, tst ++ [pyStrip w], Mode.warmup, rest, [], hist ++ [pyStrip w], pc + 1⟩ := by
      intro hc
      simp only [step, afterPop]
      rw [if_neg hskip, if_neg (by omega : ¬ p.maxGuesses < g + 1)]
      rw [hsolved]
      rw [if_neg (by decide : ¬ false = true)]
      have hcond : ¬ (True ∧ (reveal_ratio (env.stateAfter (hist ++ [pyStrip w])) ≥
          p.revealThreshold ∨ p.words.getLast? = some (pyStrip w))) :=
        fun hand => hc hand.2
      rw [if_neg hcond]
    have htrans : ∀ (hc : reveal_ratio (env.stateAfter (hist ++ [pyStrip w])) ≥
        p.revealThreshold ∨ p.words.getLast? = some (pyStrip w)),
        step env p ⟨g, tst, Mode.warmup, w :: rest, [], hist, pc⟩ =
          StepRes.cont ⟨g + 1, tst ++ [pyStrip w], Mode.llm, rest, [], hist ++ [pyStrip w], pc + 1⟩ := by
      intro hc
      simp only [step, afterPop]
      rw [if_neg hskip, if_neg (by omega : ¬ p.maxGuesses < g + 1)]
      rw [hsolved]
      rw [if_neg (by decide : ¬ false = true)]
      have hcond : True ∧ (reveal_ratio (env.stateAfter (hist ++ [pyStrip w])) ≥
          p.revealThreshold ∨ p.words.getLast? = some (pyStrip w)) := ⟨trivial, hc⟩
      rw [if_pos hcond]
    constructor
    · constructor
      · intro heq
        by_contra hc
        rw [hnottrans hc] at heq
        injection heq with heq
        have := congrArg LoopState.mode heq
        simp at this
      · intro hc
        exact htrans hc
    · intro hc
      exact hnottrans hc

/-- C4 witness: the spec scenario — warm-up list `["chat", "chien"]`,
threshold `1/2`, reveal ratio `3/5` after guessing `chat` — the mode switches
to suggestion mode before `chien` is tried. -/
theorem C4_warmup_transition_spec_witness :
    step envRatio ⟨["chat", "chien"], 200, 1/2, 10⟩
        (initState ["chat", "chien"]) =
      StepRes.cont ⟨1, ["chat"], Mode.llm, ["chien"], [], ["chat"], 1⟩ := by
  have h := ((C4_warmup_transition_spec envRatio ⟨["chat", "chien"], 200, 1/2, 10⟩
      (initState ["chat", "chien"]) rfl rfl).2.2 "chat" ["chien"] rfl
      (by decide) (by decide) (by decide)).1.mpr
    (Or.inl (by norm_num [envRatio, reveal_ratio, trivState]))
  exact h

/-- C5 amended: in suggestion mode with an empty pending queue, if the
Oracle capability is disabled, or its response parses but yields no usable
candidates after validation and batching, the run terminates as exhausted,
returning the guesses made so far with `solved = false`; but — contrary to
the claim — a malformed response body raises out of `run` (the `json.loads`
exception is not caught), modelled here as the `exn` outcome. -/
theorem C5_amended_exhausted_spec (env : Env) (p : Params) (s : LoopState)
    (hm : s.mode = Mode.llm) (hp : s.pending = []) :
    (env.oracle = none → step env p s = StepRes.done ⟨s.guesses, false⟩ s) ∧
    (∀ orc, env.oracle = some orc → ∀ ws, orc s.history = OracleResp.parsed ws →
      (filter_words ws ((sortStrings s.tested).map normalize_word)
          (((env.stateAfter s.history).revealed_words).map normalize_word) 3).take
          p.llmBatchSize = [] →
      step env p s = StepRes.done ⟨s.guesses, false⟩ s) ∧
    (∀ orc, env.oracle = some orc → orc s.history = OracleResp.malformed →
      step env p s = StepRes.exn s) := by
  obtain ⟨g, tst, m, wr, pd, hist, pc⟩ := s
  simp only at hm hp
  subst hm
  subst hp
  refine ⟨?_, ?_, ?_⟩
  · intro ho
    simp only [step, ho]
  · intro orc ho ws hresp htake
    simp only [step, ho, hresp, suggest_words, htake]
  · intro orc ho hresp
    simp only [step, ho, hresp, suggest_words]

/-- C5 counterexample: with an enabled Oracle whose response body is
malformed, the run does not terminate as exhausted: the parse exception
escapes `run` (outcome `exn`), contradicting the claim that a bad suggestion
batch never raises out of the run. -/
theorem C5_counterexample_malformed_raises :
    run envMalformed ⟨[], 200, 1, 10⟩ 5 =
      some (RunOutcome.exn, ⟨0, [], Mode.llm, [], [], [], 0⟩) := by
  rfl

/-- C5 witness: `C5_amended_exhausted_spec` at a concrete suggestion-mode
state with the Oracle disabled: the run ends with the two guesses made so
far and `solved = false`. -/
theorem C5_amended_exhausted_spec_witness :
    step envTriv ⟨[], 200, 1, 10⟩ ⟨2, ["chat", "chien"], Mode.llm, [], [], ["chat", "chien"], 2⟩ =
      StepRes.done ⟨2, false⟩ ⟨2, ["chat", "chien"], Mode.llm, [], [], ["chat", "chien"], 2⟩ :=
  (C5_amended_exhausted_spec envTriv ⟨[], 200, 1, 10⟩
      ⟨2, ["chat", "chien"], Mode.llm, [], [], ["chat", "chien"], 2⟩ rfl rfl).1 rfl

/-- C9 witness: `C9_merge_spec` at a concrete pair of one-token sections
whose hint tokens carry the same word in different cases: the merged
`hint_words` holds an entry for `soleil`. -/
theorem C9_merge_spec_witness :
    ∃ h ∈ (read_state [⟨some 1, some "Soleil", none, some "orange", none, true⟩]
        [⟨some 2, some "SOLEIL", none, some "red", none, false⟩] none).hint_words,
      h.word = (⟨"soleil", 0⟩ : HintWord).word :=
  (C9_merge_spec [⟨some 1, some "Soleil", none, some "orange", none, true⟩]
      [⟨some 2, some "SOLEIL", none, some "red", none, false⟩] none).2.1.2.2.2
    ⟨"soleil", 0⟩ (by decide)
